import Mathlib

/-!
Verification of the sandboxed filesystem engine of `app.py` (a single-root
file sharing server): path containment (`get_safe_path`), filename
sanitization (`safe_filename`), file-type classification (`get_file_type`),
the file operation engine (`mkdir`, `rename`, `copy`, `move`) and the
recycle-bin subsystem (`delete`/`add_to_recycle_bin`, `restore`,
`permanent_delete`, `clean_old_items`, `load_metadata`).

The filesystem is embedded as an association list from absolute paths
(lists of name components) to nodes (files with byte content, or
directories).  Python `pathlib` paths are embedded as component lists;
`Path.resolve()` becomes lexical normalization (the deployment target has
no symlinks inside the share).  Machine strings are Lean `String`s.
-/

namespace App

/-- A filesystem node: a regular file with its byte content, or a directory. -/
inductive Node where
  | file (content : List Nat)
  | dir
deriving DecidableEq

/-- A filesystem: an association list from absolute paths (component lists)
to nodes.  Lookup takes the first matching entry. -/
abbrev FS := List (List String × Node)

/-- Look up the node stored at path `p` (first match). -/
def fsGet : FS → List String → Option Node
  | [], _ => none
  | e :: rest, p => if e.1 = p then some e.2 else fsGet rest p

/-- `Path.exists()`: some node is stored at `p`. -/
def fsExists (fs : FS) (p : List String) : Bool :=
  (fsGet fs p).isSome

/-- `Path.is_file()`. -/
def isFile (fs : FS) (p : List String) : Bool :=
  match fsGet fs p with
  | some (Node.file _) => true
  | _ => false

/-- `Path.is_dir()`. -/
def isDir (fs : FS) (p : List String) : Bool :=
  match fsGet fs p with
  | some Node.dir => true
  | _ => false

/-- `Path.unlink()`: remove the entry at exactly `p`. -/
def fsUnlink (fs : FS) (p : List String) : FS :=
  fs.filter fun e => decide (e.1 ≠ p)

/-- `shutil.rmtree(p)`: remove `p` and everything below it. -/
def fsRmtree (fs : FS) (p : List String) : FS :=
  fs.filter fun e => !(p.isPrefixOf e.1)

/-- `shutil.move(src, dst)` / `Path.rename`: re-root every entry under
`src` (including `src` itself) at `dst`. -/
def moveTree (src dst : List String) (fs : FS) : FS :=
  fs.map fun e =>
    if src.isPrefixOf e.1 then (dst ++ e.1.drop src.length, e.2) else e

/-- `shutil.copy2(src, dst)`: duplicate the file node at `src` to `dst`. -/
def copyFile (fs : FS) (src dst : List String) : FS :=
  match fsGet fs src with
  | some n => fs ++ [(dst, n)]
  | none => fs

/-- `shutil.copytree(src, dst)`: duplicate the whole subtree rooted at
`src` to `dst`. -/
def copyTreeFS (fs : FS) (src dst : List String) : FS :=
  fs ++ fs.filterMap fun e =>
    if src.isPrefixOf e.1 then some (dst ++ e.1.drop src.length, e.2) else none

/-- The nonempty prefixes of a path, shortest first. -/
def prefixesOf (p : List String) : List (List String) :=
  (List.range p.length).map fun i => p.take (i + 1)

/-- `Path.mkdir(parents=True, exist_ok=True)`: create `p` and every missing
ancestor as a directory. -/
def mkdirP (fs : FS) (p : List String) : FS :=
  (prefixesOf p).foldl
    (fun acc a => if fsExists acc a then acc else acc ++ [(a, Node.dir)]) fs

/-- `Path.name`: the final path component. -/
def lastName (p : List String) : String :=
  p.getLastD ""

/-- `Path.stat().st_size` for files (byte count of the content). -/
def fileSize (fs : FS) (p : List String) : Nat :=
  match fsGet fs p with
  | some (Node.file c) => c.length
  | _ => 0

/-- `get_dir_size`: recursive sum of the sizes of all files strictly below `p`. -/
def get_dir_size (fs : FS) (p : List String) : Nat :=
  (fs.filterMap fun e =>
    match e.2 with
    | Node.file c => if p.isPrefixOf e.1 && decide (e.1 ≠ p) then some c.length else none
    | Node.dir => none).sum

/-! ## Path sandbox (`get_safe_path`) -/

/-- A user-supplied path: `absolute` marks a leading separator (which makes
`base / rel` discard the base in `pathlib`). -/
structure RelPath where
  absolute : Bool
  parts : List String
deriving DecidableEq

/-- Lexical core of `Path.resolve()`: fold the components of the second
argument onto the stack `acc`, handling `.`, empty components and `..`
(`..` at the filesystem root stays at the root). -/
def normalize : List String → List String → List String
  | acc, [] => acc
  | acc, c :: rest =>
    if c = "." || c = "" then normalize acc rest
    else if c = ".." then normalize acc.dropLast rest
    else normalize (acc ++ [c]) rest

/-- `(base_path / relative_path).resolve()` for an already canonical
`root`: an absolute `rp` discards the base. -/
def resolveTarget (root : List String) (rp : RelPath) : List String :=
  if rp.absolute then normalize [] rp.parts else normalize root rp.parts

/-- POSIX rendering of an absolute path (`str(Path)`) as a character list. -/
def renderPathL (p : List String) : List Char :=
  match p with
  | [] => ['/']
  | _ => (p.map fun c => '/' :: c.data).flatten

/-- POSIX rendering of an absolute path as a string. -/
def renderPath (p : List String) : String :=
  String.mk (renderPathL p)

/-- Python `str.startswith`: string-level prefix test. -/
def strStartsWith (s pre : String) : Bool :=
  pre.data.isPrefixOf s.data

/-- `get_safe_path`: resolve `root / rp` and accept the result iff its
rendered form has the rendered root as a string prefix (`abort(403)`
otherwise, modelled as `none`). -/
def get_safe_path (root : List String) (rp : RelPath) : Option (List String) :=
  if strStartsWith (renderPath (resolveTarget root rp)) (renderPath root) then
    some (resolveTarget root rp)
  else none

/-! ## Filename sanitization (`safe_filename`) -/

/-- The explicitly stripped character set of `safe_filename`. -/
def dangerousChars : List Char :=
  ['/', '\\', ':', '*', '?', '"', '<', '>', '|', Char.ofNat 0]

/-- The control-character ranges stripped by `safe_filename`
(`[\x00-\x1f\x7f-\x9f]`). -/
def isCtrlChar (c : Char) : Bool :=
  c.toNat ≤ 0x1f || (0x7f ≤ c.toNat && c.toNat ≤ 0x9f)

/-- The sequential `str.replace(ch, '')` loop over `dangerousChars`. -/
def removeDangerous (cs : List Char) : List Char :=
  cs.filter fun c => !(dangerousChars.contains c)

/-- The `re.sub` pass removing control characters. -/
def removeControl (cs : List Char) : List Char :=
  cs.filter fun c => !(isCtrlChar c)

/-- Membership in the strip set of `str.strip('. ')`. -/
def isDotSpace (c : Char) : Bool :=
  c = '.' || c = ' '

/-- Drop matching characters from the right end. -/
def dropRightW (p : Char → Bool) (cs : List Char) : List Char :=
  ((cs.reverse).dropWhile p).reverse

/-- `str.strip('. ')`: trim leading and trailing dots and spaces. -/
def stripDotSpace (cs : List Char) : List Char :=
  dropRightW isDotSpace (cs.dropWhile isDotSpace)

/-- The character-cleaning pipeline of `safe_filename` on a character list. -/
def cleanChars (cs : List Char) : List Char :=
  stripDotSpace (removeControl (removeDangerous cs))

/-- The result of `safe_filename` just before the empty-name fallback. -/
def strippedName (s : String) : String :=
  String.mk (cleanChars s.data)

/-- `safe_filename`: clean the name and fall back to `unnamed` when the
cleaned name is empty. -/
def safe_filename (s : String) : String :=
  let r := strippedName s
  if r = "" then "unnamed" else r

/-! ## File-type classification (`get_file_type`) -/

/-- `str.rfind('.')` on a character list: index of the last dot. -/
def rfindDot : List Char → Option Nat
  | [] => none
  | c :: rest =>
    match rfindDot rest with
    | some i => some (i + 1)
    | none => if c = '.' then some 0 else none

/-- `PurePath.suffix` of a bare file name: the part from the last dot,
unless the dot is the first or the last character. -/
def suffixOf (name : String) : String :=
  let cs := name.data
  match rfindDot cs with
  | some i => if 0 < i && i < cs.length - 1 then String.mk (cs.drop i) else ""
  | none => ""

/-- ASCII `str.lower` on one character. -/
def charLower (c : Char) : Char :=
  if 'A' ≤ c && c ≤ 'Z' then Char.ofNat (c.toNat + 32) else c

/-- ASCII `str.lower`. -/
def lowerStr (s : String) : String :=
  String.mk (s.data.map charLower)

/-- The audio extension set of `get_file_type`. -/
def audio_exts : List String :=
  [".mp3", ".wav", ".ogg", ".m4a", ".aac", ".flac", ".wma"]

/-- The video extension set of `get_file_type`. -/
def video_exts : List String :=
  [".mp4", ".webm", ".ogg", ".avi", ".mov", ".mkv", ".flv"]

/-- The image extension set of `get_file_type`. -/
def image_exts : List String :=
  [".jpg", ".jpeg", ".png", ".gif", ".bmp", ".webp", ".svg"]

/-- `get_file_type`: classify a file name by its lowercased extension,
testing the audio set first, then video, image, pdf. -/
def get_file_type (filename : String) : String :=
  let ext := lowerStr (suffixOf filename)
  if audio_exts.contains ext then "audio"
  else if video_exts.contains ext then "video"
  else if image_exts.contains ext then "image"
  else if ext = ".pdf" then "pdf"
  else "other"

/-! ## File operation engine (`/mkdir`, `/rename`, `/copy`, `/move`) -/

/-- Typed operation outcomes, matching the error messages of the routes:
`missingParam` for the raw falsy-parameter checks, `outOfBounds` for
`abort(403)` in `get_safe_path`, and the remaining typed failures. -/
inductive OpResult where
  | ok
  | missingParam
  | outOfBounds
  | notFound
  | alreadyExists
  | invalidName
  | invalidOperation
deriving DecidableEq

/-- The `/mkdir` route: sanitize the name, resolve the parent, reject an
existing target, then `mkdir(parents=True)`. -/
def mkdirOp (fs : FS) (root : List String) (rp : RelPath) (dirname : String) :
    FS × OpResult :=
  if dirname = "" then (fs, OpResult.missingParam)
  else
    let dn := safe_filename dirname
    match get_safe_path root rp with
    | none => (fs, OpResult.outOfBounds)
    | some target =>
      let newDir := target ++ [dn]
      if fsExists fs newDir then (fs, OpResult.alreadyExists)
      else (mkdirP fs newDir, OpResult.ok)

/-- The `/rename` route: sanitize the new name (with its dead empty-name
check), resolve the path, reject a missing source or an existing sibling,
then `Path.rename`. -/
def renameOp (fs : FS) (root : List String) (rp : RelPath) (new_name : String) :
    FS × OpResult :=
  if new_name = "" then (fs, OpResult.missingParam)
  else
    let nn := safe_filename new_name
    if nn = "" then (fs, OpResult.invalidName)
    else
      match get_safe_path root rp with
      | none => (fs, OpResult.outOfBounds)
      | some target =>
        if fsExists fs target then
          let newPath := target.dropLast ++ [nn]
          if fsExists fs newPath then (fs, OpResult.alreadyExists)
          else (moveTree target newPath fs, OpResult.ok)
        else (fs, OpResult.notFound)

/-- The `/copy` route: resolve source and destination directory, check
existence, check the destination conflict, check directory
self-containment, then `copy2`/`copytree`. -/
def copyOp (fs : FS) (root : List String) (srcp dstp : RelPath) :
    FS × OpResult :=
  match get_safe_path root srcp with
  | none => (fs, OpResult.outOfBounds)
  | some source =>
    match get_safe_path root dstp with
    | none => (fs, OpResult.outOfBounds)
    | some dest_dir =>
      if fsExists fs source then
        if fsExists fs dest_dir && isDir fs dest_dir then
          let dest := dest_dir ++ [lastName source]
          if fsExists fs dest then (fs, OpResult.alreadyExists)
          else if isDir fs source && source.isPrefixOf dest then
            (fs, OpResult.invalidOperation)
          else if isFile fs source then (copyFile fs source dest, OpResult.ok)
          else (copyTreeFS fs source dest, OpResult.ok)
        else (fs, OpResult.notFound)
      else (fs, OpResult.notFound)

/-- The `/move` route: the same pre-checks as `/copy`, then `shutil.move`. -/
def moveOp (fs : FS) (root : List String) (srcp dstp : RelPath) :
    FS × OpResult :=
  match get_safe_path root srcp with
  | none => (fs, OpResult.outOfBounds)
  | some source =>
    match get_safe_path root dstp with
    | none => (fs, OpResult.outOfBounds)
    | some dest_dir =>
      if fsExists fs source then
        if fsExists fs dest_dir && isDir fs dest_dir then
          let dest := dest_dir ++ [lastName source]
          if fsExists fs dest then (fs, OpResult.alreadyExists)
          else if isDir fs source && source.isPrefixOf dest then
            (fs, OpResult.invalidOperation)
          else (moveTree source dest fs, OpResult.ok)
        else (fs, OpResult.notFound)
      else (fs, OpResult.notFound)

/-! ## Recycle bin subsystem -/

/-- One entry of `.metadata.json`. -/
structure Record where
  original_name : String
  original_path : RelPath
  deleted_time : Nat
  is_dir : Bool
  size : Nat
deriving DecidableEq

/-- The recycle-bin metadata mapping, id to record. -/
abbrev Metadata := List (String × Record)

/-- Dict lookup `metadata[item_id]` (first match). -/
def lookupRec : Metadata → String → Option Record
  | [], _ => none
  | e :: rest, i => if e.1 = i then some e.2 else lookupRec rest i

/-- `del metadata[item_id]`. -/
def mdErase (md : Metadata) (i : String) : Metadata :=
  md.filter fun e => decide (e.1 ≠ i)

/-- `metadata[unique_id] = record` (dict insert-or-overwrite). -/
def mdInsert (md : Metadata) (i : String) (r : Record) : Metadata :=
  mdErase md i ++ [(i, r)]

/-- `get_recycle_bin_path()`: the fixed recycle folder under the root. -/
def binPath (root : List String) : List String :=
  root ++ ["回收站"]

/-- The extension a record's physical object carries in the bin
(`Path(info['original_name']).suffix` for files, empty for directories). -/
def recExt (r : Record) : String :=
  if r.is_dir then "" else suffixOf r.original_name

/-- The name `{id}{ext}` of a record's physical object inside the bin. -/
def objNameOf (e : String × Record) : String :=
  e.1 ++ recExt e.2

/-- `load_metadata`: the persisted document is absent, unparseable, or a
mapping; the first two load as the empty mapping. -/
def load_metadata : Option (Option Metadata) → Metadata
  | none => []
  | some none => []
  | some (some md) => md

/-- The `/delete` route plus `add_to_recycle_bin`: resolve and check the
target, refuse deleting the bin itself, ensure the bin directory exists,
move the object to `bin/{uid}{ext}` and append a record. -/
def deleteOp (fs : FS) (md : Metadata) (root : List String) (rp : RelPath)
    (uid : String) (now : Nat) : FS × Metadata × OpResult :=
  match get_safe_path root rp with
  | none => (fs, md, OpResult.outOfBounds)
  | some target =>
    if fsExists fs target then
      if target = binPath root then (fs, md, OpResult.invalidOperation)
      else
        let fs1 := if fsExists fs (binPath root) then fs else mkdirP fs (binPath root)
        let ext := if isFile fs1 target then suffixOf (lastName target) else ""
        let dest := binPath root ++ [uid ++ ext]
        let fs2 := moveTree target dest fs1
        let rec0 : Record :=
          { original_name := lastName target
            original_path := rp
            deleted_time := now
            is_dir := isDir fs2 dest
            size := if isDir fs2 dest then get_dir_size fs2 dest else fileSize fs2 dest }
        (fs2, mdInsert md uid rec0, OpResult.ok)
    else (fs, md, OpResult.notFound)

/-- The `/restore` route: look up the record, check the physical object,
re-resolve the original path, reject an occupied original location, create
missing parents, move the object back and drop the record. -/
def restoreOp (fs : FS) (md : Metadata) (root : List String) (id : String) :
    FS × Metadata × OpResult :=
  match lookupRec md id with
  | none => (fs, md, OpResult.notFound)
  | some info =>
    let ip := binPath root ++ [id ++ recExt info]
    if fsExists fs ip then
      match get_safe_path root info.original_path with
      | none => (fs, md, OpResult.outOfBounds)
      | some original =>
        if fsExists fs original then (fs, md, OpResult.alreadyExists)
        else
          let fs1 := mkdirP fs original.dropLast
          let fs2 := moveTree ip original fs1
          (fs2, mdErase md id, OpResult.ok)
    else (fs, md, OpResult.notFound)

/-- The `/permanent-delete` route: look up the record, delete the physical
object if present (unlink for files, rmtree otherwise), then drop the
record regardless. -/
def permanent_delete (fs : FS) (md : Metadata) (root : List String) (id : String) :
    FS × Metadata × OpResult :=
  match lookupRec md id with
  | none => (fs, md, OpResult.notFound)
  | some info =>
    let ip := binPath root ++ [id ++ recExt info]
    let fs1 :=
      if fsExists fs ip then
        if isFile fs ip then fsUnlink fs ip else fsRmtree fs ip
      else fs
    (fs1, mdErase md id, OpResult.ok)

/-- `timedelta.days` for timestamps in seconds. -/
def daysDiff (now deleted : Nat) : Nat :=
  (now - deleted) / 86400

/-- The retention threshold `RECYCLE_DAYS`. -/
def RECYCLE_DAYS : Nat := 30

/-- The loop of `clean_old_items`: walk the records, permanently delete the
physical object of every record at least `RECYCLE_DAYS` days old whose
object exists, and collect the ids so removed. -/
def cleanLoop (root : List String) (now : Nat) : FS → Metadata → FS × List String
  | fs, [] => (fs, [])
  | fs, e :: rest =>
    if RECYCLE_DAYS ≤ daysDiff now e.2.deleted_time then
      let ip := binPath root ++ [objNameOf e]
      if fsExists fs ip then
        let fs1 := if isFile fs ip then fsUnlink fs ip else fsRmtree fs ip
        let r := cleanLoop root now fs1 rest
        (r.1, e.1 :: r.2)
      else cleanLoop root now fs rest
    else cleanLoop root now fs rest

/-- `clean_old_items`: run the sweep loop, then drop the collected ids from
the metadata and report how many were purged. -/
def clean_old_items (fs : FS) (md : Metadata) (root : List String) (now : Nat) :
    FS × Metadata × Nat :=
  let r := cleanLoop root now fs md
  (r.1, md.filter fun e => decide (e.1 ∉ r.2), r.2.length)

/-- The `/recycle-bin` listing: sweep first, then keep the records whose
physical object exists. -/
def recycleListing (fs : FS) (md : Metadata) (root : List String) (now : Nat) :
    Metadata :=
  let c := clean_old_items fs md root now
  c.2.1.filter fun e => fsExists c.1 (binPath root ++ [objNameOf e])

/-! ## Helper lemmas -/

theorem dropWhile_idem (p : Char → Bool) (l : List Char) :
    (l.dropWhile p).dropWhile p = l.dropWhile p := by
  induction l with
  | nil => rfl
  | cons a t ih =>
    by_cases h : p a = true
    · simp [ List.dropWhile_cons, h, ih]
    · simp [ List.dropWhile_cons, h]

theorem dropRightW_idem (p : Char → Bool) (l : List Char) :
    dropRightW p (dropRightW p l) = dropRightW p l := by
  unfold dropRightW
  rw [ List.reverse_reverse, dropWhile_idem]

theorem dropRightW_sublist (p : Char → Bool) (l : List Char) :
    List.Sublist (dropRightW p l) l := by
  have h := (List.dropWhile_sublist (l := l.reverse) p).reverse
  rwa [ List.reverse_reverse] at h

theorem stripDotSpace_sublist (l : List Char) :
    List.Sublist (stripDotSpace l) l :=
  (dropRightW_sublist _ _).trans (List.dropWhile_sublist _)

theorem dropWhile_head_false (p : Char → Bool) (l : List Char) (b : Char)
    (rest : List Char) (h : l.dropWhile p = b :: rest) : p b = false := by
  induction l with
  | nil => simp at h
  | cons a t ih =>
    by_cases hpa : p a = true
    · rw [ List.dropWhile_cons, if_pos hpa] at h
      exact ih h
    · rw [ List.dropWhile_cons, if_neg hpa] at h
      cases h
      simpa using hpa

theorem dropRightW_isPrefix (p : Char → Bool) (u : List Char) :
    dropRightW p u <+: u := by
  obtain ⟨t, ht⟩ := List.dropWhile_suffix (l := u.reverse) p
  refine ⟨t.reverse, ?_⟩
  have h2 := congrArg List.reverse ht
  rwa [ List.reverse_append, List.reverse_reverse] at h2

theorem dropWhile_dropRightW (p : Char → Bool) (l : List Char) :
    (dropRightW p (l.dropWhile p)).dropWhile p = dropRightW p (l.dropWhile p) := by
  cases hs : dropRightW p (l.dropWhile p) with
  | nil => rfl
  | cons b s' =>
    have hpfx : dropRightW p (l.dropWhile p) <+: l.dropWhile p :=
      dropRightW_isPrefix p (l.dropWhile p)
    rw [hs] at hpfx
    obtain ⟨t, ht⟩ := hpfx
    have hb : p b = false := dropWhile_head_false p l b (s' ++ t) ht.symm
    rw [ List.dropWhile_cons, if_neg (by simp [hb])]

theorem stripDotSpace_idem (l : List Char) :
    stripDotSpace (stripDotSpace l) = stripDotSpace l := by
  show stripDotSpace (dropRightW isDotSpace (l.dropWhile isDotSpace)) = _
  unfold stripDotSpace
  rw [dropWhile_dropRightW, dropRightW_idem]

theorem mem_removeDangerous {c : Char} {cs : List Char}
    (h : c ∈ removeDangerous cs) : (!(dangerousChars.contains c)) = true :=
  (List.mem_filter.mp h).2

theorem mem_removeControl {c : Char} {cs : List Char}
    (h : c ∈ removeControl cs) : (!(isCtrlChar c)) = true :=
  (List.mem_filter.mp h).2

theorem cleanChars_idem (cs : List Char) :
    cleanChars (cleanChars cs) = cleanChars cs := by
  unfold cleanChars
  have hmem : ∀ c ∈ stripDotSpace (removeControl (removeDangerous cs)),
      c ∈ removeControl (removeDangerous cs) :=
    fun c hc => (stripDotSpace_sublist _).mem hc
  have h1 : removeDangerous (stripDotSpace (removeControl (removeDangerous cs)))
      = stripDotSpace (removeControl (removeDangerous cs)) :=
    List.filter_eq_self.mpr fun c hc =>
      mem_removeDangerous ((List.filter_sublist _).mem (hmem c hc))
  have h2 : removeControl (stripDotSpace (removeControl (removeDangerous cs)))
      = stripDotSpace (removeControl (removeDangerous cs)) :=
    List.filter_eq_self.mpr fun c hc => mem_removeControl (hmem c hc)
  rw [h1, h2, stripDotSpace_idem]

theorem strippedName_idem (x : String) :
    strippedName (strippedName x) = strippedName x := by
  show String.mk (cleanChars (cleanChars x.data)) = _
  rw [cleanChars_idem]
  rfl

theorem renderPathL_cons (c : String) (cs : List String) :
    renderPathL (c :: cs) = ((c :: cs).map fun s => '/' :: s.data).flatten := rfl

theorem renderPathL_append (root rest : List String) (h : root ≠ []) :
    renderPathL (root ++ rest) =
      renderPathL root ++ (rest.map fun c => '/' :: c.data).flatten := by
  cases root with
  | nil => exact absurd rfl h
  | cons r rs =>
    rw [ List.cons_append, renderPathL_cons, renderPathL_cons, ← List.cons_append,
      List.map_append, List.flatten_append]

theorem renderPathL_head_slash (t : List String) :
    ∃ cs, renderPathL t = '/' :: cs := by
  cases t with
  | nil => exact ⟨[], rfl⟩
  | cons c cs =>
    refine ⟨c.data ++ ((cs.map fun c => '/' :: c.data).flatten), ?_⟩
    rfl

theorem strStartsWith_of_descendant (root t : List String) (h : root <+: t) :
    strStartsWith (renderPath t) (renderPath root) = true := by
  unfold strStartsWith renderPath
  rw [ List.isPrefixOf_iff_prefix]
  show renderPathL root <+: renderPathL t
  by_cases hr : root = []
  · subst hr
    obtain ⟨cs, hcs⟩ := renderPathL_head_slash t
    rw [hcs]
    exact ⟨cs, rfl⟩
  · obtain ⟨rest, rfl⟩ := h
    rw [renderPathL_append root rest hr]
    exact List.prefix_append _ _

theorem fsGet_nil (p : List String) : fsGet [] p = none := rfl

theorem fsGet_cons (e : List String × Node) (rest : FS) (p : List String) :
    fsGet (e :: rest) p = if e.1 = p then some e.2 else fsGet rest p := rfl

theorem fsGet_eq_none_iff (fs : FS) (p : List String) :
    fsGet fs p = none ↔ ∀ e ∈ fs, e.1 ≠ p := by
  induction fs with
  | nil => simp [fsGet_nil]
  | cons e rest ih =>
    rw [fsGet_cons]
    by_cases hep : e.1 = p
    · rw [if_pos hep]
      constructor
      · intro h; cases h
      · intro h; exact absurd hep (h e (List.mem_cons_self e rest))
    · rw [if_neg hep, ih]
      constructor
      · intro h e' he'
        rcases List.mem_cons.mp he' with h1 | h1
        · rw [h1]; exact hep
        · exact h e' h1
      · intro h e' he'
        exact h e' (List.mem_cons_of_mem _ he')

theorem fsGet_fsUnlink_self (fs : FS) (p : List String) :
    fsGet (fsUnlink fs p) p = none := by
  rw [fsGet_eq_none_iff]
  intro e he
  have := (List.mem_filter.mp he).2
  simpa using this

theorem isPrefixOf_refl (p : List String) : p.isPrefixOf p = true :=
  List.isPrefixOf_iff_prefix.mpr List.prefix_rfl

theorem fsGet_fsRmtree_self (fs : FS) (p : List String) :
    fsGet (fsRmtree fs p) p = none := by
  rw [fsGet_eq_none_iff]
  intro e he hep
  have h2 := (List.mem_filter.mp he).2
  rw [hep] at h2
  rw [isPrefixOf_refl] at h2
  simp at h2

theorem lookupRec_mdErase_self (md : Metadata) (i : String) :
    lookupRec (mdErase md i) i = none := by
  induction md with
  | nil => rfl
  | cons e rest ih =>
    by_cases h : e.1 = i
    · simpa [mdErase, h] using ih
    · simpa [mdErase, lookupRec, h] using ih

/-! ## Claim theorems -/

/-- C8: filename sanitization is idempotent: for every input string `x`,
`safe_filename (safe_filename x) = safe_filename x`. -/
theorem c8_sanitize_idempotent (x : String) :
    safe_filename (safe_filename x) = safe_filename x := by
  unfold safe_filename
  by_cases h : strippedName x = ""
  · simp only [h, if_pos rfl]
    decide
  · simp [strippedName_idem, h]

/-- C9: the extension `.ogg` is a member of both the audio and the video
extension sets, and `get_file_type` classifies every file name whose
lowercased suffix is `.ogg` as audio (the audio set is tested first), so no
`.ogg` file is ever classified as video. -/
theorem c9_ogg_is_audio :
    (".ogg" ∈ audio_exts ∧ ".ogg" ∈ video_exts) ∧
      ∀ s : String, lowerStr (suffixOf s) = ".ogg" → get_file_type s = "audio" := by
  refine ⟨by decide, ?_⟩
  intro s h
  simp only [get_file_type, h]
  decide

/-- Witness for C9 at the concrete file name `a.OGG`. -/
theorem c9_witness :
    lowerStr (suffixOf "a.OGG") = ".ogg" ∧ get_file_type "a.OGG" = "audio" :=
  ⟨by decide, c9_ogg_is_audio.2 "a.OGG" (by decide)⟩

/-- C1 counterexample: under root `/share`, the user path `../share2`
resolves to the sibling `/share2`, which `get_safe_path` accepts because
`"/share2"` has the string `"/share"` as a prefix, although `/share2` is
neither the root nor a descendant of it. -/
theorem c1_counterexample :
    get_safe_path ["share"] ⟨false, ["..", "share2"]⟩ = some ["share2"] ∧
      (["share"].isPrefixOf ["share2"]) = false ∧ ["share2"] ≠ ["share"] := by
  decide

/-- C1 amended: `get_safe_path` accepts exactly the paths whose rendered
canonical form extends the rendered root as a string: every accepted
target has the rendered root as a string prefix, and every target that is
the root or a descendant of the root is accepted.  (By `c1_counterexample`
this is weaker than true containment: sibling paths whose final component
merely extends the root's name are also accepted.) -/
theorem c1_string_prefix_containment (root : List String) (rp : RelPath) :
    (∀ t, get_safe_path root rp = some t →
      strStartsWith (renderPath t) (renderPath root) = true) ∧
    (root.isPrefixOf (resolveTarget root rp) = true →
      get_safe_path root rp = some (resolveTarget root rp)) := by
  constructor
  · intro t ht
    unfold get_safe_path at ht
    by_cases hc :
        strStartsWith (renderPath (resolveTarget root rp)) (renderPath root) = true
    · rw [if_pos hc] at ht
      cases ht
      exact hc
    · rw [if_neg hc] at ht
      cases ht
  · intro h
    have hpfx : root <+: resolveTarget root rp := List.isPrefixOf_iff_prefix.mp h
    unfold get_safe_path
    rw [if_pos (strStartsWith_of_descendant root _ hpfx)]

/-- Witness for C1 at root `/share` and the in-bounds path `docs`. -/
theorem c1_witness :
    get_safe_path ["share"] ⟨false, ["docs"]⟩ = some ["share", "docs"] ∧
      strStartsWith (renderPath ["share", "docs"]) (renderPath ["share"]) = true :=
  ⟨(c1_string_prefix_containment ["share"] ⟨false, ["docs"]⟩).2 (by decide),
    (c1_string_prefix_containment ["share"] ⟨false, ["docs"]⟩).1 ["share", "docs"]
      ((c1_string_prefix_containment ["share"] ⟨false, ["docs"]⟩).2 (by decide))⟩

/-- A sample share: a directory `d` and a file `a.txt` under root `/share`. -/
def fsShare : FS :=
  [(["share"], Node.dir), (["share", "d"], Node.dir),
    (["share", "a.txt"], Node.file [1, 2])]

/-- A sample share with a nested directory `d/e` under root `/share`. -/
def fsNest : FS :=
  [(["share"], Node.dir), (["share", "d"], Node.dir),
    (["share", "d", "e"], Node.dir)]

/-- C2 counterexample: copying (or moving) the directory `d` into its own
parent makes the canonical destination equal to the source — a
"source or descendant of source" destination — but the operation fails
with `AlreadyExists`, not `InvalidOperation`, because the
destination-exists check runs before the self-containment check. -/
theorem c2_counterexample :
    isDir fsShare ["share", "d"] = true ∧
      (["share"] ++ [lastName ["share", "d"]]) = ["share", "d"] ∧
      (copyOp fsShare ["share"] ⟨false, ["d"]⟩ ⟨false, []⟩).2 = OpResult.alreadyExists ∧
      (moveOp fsShare ["share"] ⟨false, ["d"]⟩ ⟨false, []⟩).2 = OpResult.alreadyExists ∧
      OpResult.alreadyExists ≠ OpResult.invalidOperation := by
  decide

/-- C2 amended: for a directory source whose canonical destination
`destDir ++ [basename source]` is the source itself or a descendant of it,
copy and move fail with `InvalidOperation` when the destination does not
already exist, and with `AlreadyExists` when it does (in particular the
destination-equals-source case always lands in `AlreadyExists`); in both
cases the filesystem — and hence the source — is returned untouched. -/
theorem c2_self_containment (fs : FS) (root : List String) (srcp dstp : RelPath)
    (source dest_dir : List String)
    (hs : get_safe_path root srcp = some source)
    (hd : get_safe_path root dstp = some dest_dir)
    (hse : fsExists fs source = true)
    (hsd : isDir fs source = true)
    (hde : fsExists fs dest_dir = true)
    (hdd : isDir fs dest_dir = true)
    (hcont : source.isPrefixOf (dest_dir ++ [lastName source]) = true) :
    copyOp fs root srcp dstp =
      (fs, if fsExists fs (dest_dir ++ [lastName source]) then OpResult.alreadyExists
        else OpResult.invalidOperation) ∧
    moveOp fs root srcp dstp =
      (fs, if fsExists fs (dest_dir ++ [lastName source]) then OpResult.alreadyExists
        else OpResult.invalidOperation) := by
  constructor
  · simp only [copyOp, hs, hd, hse, hde, hdd, Bool.and_self, if_true]
    by_cases hex : fsExists fs (dest_dir ++ [lastName source]) = true
    · simp [hex]
    · simp [hex, hsd, hcont]
  · simp only [moveOp, hs, hd, hse, hde, hdd, Bool.and_self, if_true]
    by_cases hex : fsExists fs (dest_dir ++ [lastName source]) = true
    · simp [hex]
    · simp [hex, hsd, hcont]

/-- Witness for C2 at root `/share`: copying or moving directory `d` into
its own child `d/e` fails with `InvalidOperation` and leaves the
filesystem untouched. -/
theorem c2_witness :
    copyOp fsNest ["share"] ⟨false, ["d"]⟩ ⟨false, ["d", "e"]⟩ =
      (fsNest, OpResult.invalidOperation) ∧
    moveOp fsNest ["share"] ⟨false, ["d"]⟩ ⟨false, ["d", "e"]⟩ =
      (fsNest, OpResult.invalidOperation) := by
  have h := c2_self_containment fsNest ["share"] ⟨false, ["d"]⟩ ⟨false, ["d", "e"]⟩
    ["share", "d"] ["share", "d", "e"] (by decide) (by decide) (by decide)
    (by decide) (by decide) (by decide) (by decide)
  exact ⟨h.1.trans (by decide), h.2.trans (by decide)⟩

/-- C3: every typed failure of the file operation engine (mkdir, rename,
copy, move) is decided before any filesystem mutation: a call whose result
is not `ok` returns the filesystem exactly as it received it. -/
theorem c3_validation_before_mutation :
    (∀ fs root rp dn, (mkdirOp fs root rp dn).2 ≠ OpResult.ok →
      (mkdirOp fs root rp dn).1 = fs) ∧
    (∀ fs root rp nn, (renameOp fs root rp nn).2 ≠ OpResult.ok →
      (renameOp fs root rp nn).1 = fs) ∧
    (∀ fs root srcp dstp, (copyOp fs root srcp dstp).2 ≠ OpResult.ok →
      (copyOp fs root srcp dstp).1 = fs) ∧
    (∀ fs root srcp dstp, (moveOp fs root srcp dstp).2 ≠ OpResult.ok →
      (moveOp fs root srcp dstp).1 = fs) := by
  refine ⟨?_, ?_, ?_, ?_⟩
  · intro fs root rp dn
    simp only [mkdirOp]
    split
    · intro _; rfl
    · split
      · intro _; rfl
      · split
        · intro _; rfl
        · intro h; exact absurd rfl h
  · intro fs root rp nn
    simp only [renameOp]
    split
    · intro _; rfl
    · split
      · intro _; rfl
      · split
        · intro _; rfl
        · split
          · split
            · intro _; rfl
            · intro h; exact absurd rfl h
          · intro _; rfl
  · intro fs root srcp dstp
    simp only [copyOp]
    split
    · intro _; rfl
    · split
      · intro _; rfl
      · split
        · split
          · split
            · intro _; rfl
            · split
              · intro _; rfl
              · split
                · intro h; exact absurd rfl h
                · intro h; exact absurd rfl h
          · intro _; rfl
        · intro _; rfl
  · intro fs root srcp dstp
    simp only [moveOp]
    split
    · intro _; rfl
    · split
      · intro _; rfl
      · split
        · split
          · split
            · intro _; rfl
            · split
              · intro _; rfl
              · intro h; exact absurd rfl h
          · intro _; rfl
        · intro _; rfl

/-- Witness for C3: four concrete rejected operations (mkdir onto an
existing directory, rename/copy/move of a missing source) each leave the
sample filesystem exactly as it was. -/
theorem c3_witness :
    (mkdirOp fsShare ["share"] ⟨false, []⟩ "d").1 = fsShare ∧
    (renameOp fsShare ["share"] ⟨false, ["zz"]⟩ "x").1 = fsShare ∧
    (copyOp fsShare ["share"] ⟨false, ["zz"]⟩ ⟨false, []⟩).1 = fsShare ∧
    (moveOp fsShare ["share"] ⟨false, ["zz"]⟩ ⟨false, []⟩).1 = fsShare :=
  ⟨c3_validation_before_mutation.1 fsShare ["share"] ⟨false, []⟩ "d" (by decide),
    c3_validation_before_mutation.2.1 fsShare ["share"] ⟨false, ["zz"]⟩ "x" (by decide),
    c3_validation_before_mutation.2.2.1 fsShare ["share"] ⟨false, ["zz"]⟩ ⟨false, []⟩
      (by decide),
    c3_validation_before_mutation.2.2.2 fsShare ["share"] ⟨false, ["zz"]⟩ ⟨false, []⟩
      (by decide)⟩

/-- C7 counterexample: the new name `..` sanitizes (pre-fallback) to the
empty string, yet the rename succeeds — the file is renamed to `unnamed` —
instead of failing with `InvalidName`. -/
theorem c7_counterexample :
    strippedName ".." = "" ∧
      (renameOp fsShare ["share"] ⟨false, ["a.txt"]⟩ "..").2 = OpResult.ok ∧
      (renameOp fsShare ["share"] ⟨false, ["a.txt"]⟩ "..").2 ≠ OpResult.invalidName := by
  decide

/-- C7 amended: `safe_filename` never returns the empty string — when the
character-cleaning pass empties the name it substitutes the fallback
`unnamed` — so the rename route's empty-name `InvalidName` branch is
unreachable, and a nonempty new name that cleans to empty performs a
rename to `unnamed` (succeeding whenever no `unnamed` sibling exists). -/
theorem c7_empty_sanitized_name (x : String) (fs : FS) (root : List String)
    (rp : RelPath) (target : List String)
    (hx : x ≠ "") (hstrip : strippedName x = "")
    (ht : get_safe_path root rp = some target)
    (hex : fsExists fs target = true)
    (hfree : fsExists fs (target.dropLast ++ ["unnamed"]) = false) :
    (∀ y : String, safe_filename y ≠ "") ∧
    safe_filename x = "unnamed" ∧
    renameOp fs root rp x =
      (moveTree target (target.dropLast ++ ["unnamed"]) fs, OpResult.ok) := by
  have hnever : ∀ y : String, safe_filename y ≠ "" := by
    intro y
    unfold safe_filename
    by_cases h : strippedName y = ""
    · rw [if_pos h]
      decide
    · rw [if_neg h]
      exact h
  have hsf : safe_filename x = "unnamed" := by
    unfold safe_filename
    rw [if_pos hstrip]
  refine ⟨hnever, hsf, ?_⟩
  simp only [renameOp, if_neg hx, hsf, ht, hex, if_true]
  rw [if_neg (by decide : ¬("unnamed" : String) = "")]
  simp only [hfree]
  rfl

/-- Witness for C7: renaming `a.txt` to `..` in the sample share yields a
file named `unnamed`. -/
theorem c7_witness :
    safe_filename ".." = "unnamed" ∧
    renameOp fsShare ["share"] ⟨false, ["a.txt"]⟩ ".." =
      (moveTree ["share", "a.txt"] (["share"] ++ ["unnamed"]) fsShare, OpResult.ok) := by
  have h := c7_empty_sanitized_name ".." fsShare ["share"] ⟨false, ["a.txt"]⟩
    ["share", "a.txt"] (by decide) (by decide) (by decide) (by decide) (by decide)
  exact ⟨h.2.1, h.2.2⟩

/-- C10: a metadata document that exists but fails to parse loads as the
empty mapping; consequently every restore and every permanent delete fails
with `NotFound` (leaving the filesystem, and hence the physical trashed
objects, untouched), the recycle-bin listing is empty, and the sweep
removes nothing. -/
theorem c10_corrupt_metadata_loads_empty :
    load_metadata (some none) = [] ∧
    (∀ (fs : FS) (root : List String) (id : String),
      restoreOp fs (load_metadata (some none)) root id = (fs, [], OpResult.notFound)) ∧
    (∀ (fs : FS) (root : List String) (id : String),
      permanent_delete fs (load_metadata (some none)) root id =
        (fs, [], OpResult.notFound)) ∧
    (∀ (fs : FS) (root : List String) (now : Nat),
      recycleListing fs (load_metadata (some none)) root now = []) ∧
    (∀ (fs : FS) (root : List String) (now : Nat),
      (clean_old_items fs (load_metadata (some none)) root now).1 = fs) :=
  ⟨rfl, fun _ _ _ => rfl, fun _ _ _ => rfl, fun _ _ _ => rfl, fun _ _ _ => rfl⟩

/-- C6: `permanent_delete` fails with `NotFound` when the id is absent;
when the id is present it removes the physical object (the object path no
longer exists afterwards, whether or not it existed before), erases the
record unconditionally, and a subsequent restore or permanent delete of
the same id fails with `NotFound`. -/
theorem c6_permanent_delete (fs : FS) (md : Metadata) (root : List String)
    (id : String) :
    (lookupRec md id = none →
      permanent_delete fs md root id = (fs, md, OpResult.notFound)) ∧
    (∀ info, lookupRec md id = some info →
      (permanent_delete fs md root id).2.2 = OpResult.ok ∧
      (permanent_delete fs md root id).2.1 = mdErase md id ∧
      fsExists (permanent_delete fs md root id).1
        (binPath root ++ [id ++ recExt info]) = false ∧
      restoreOp (permanent_delete fs md root id).1 (mdErase md id) root id =
        ((permanent_delete fs md root id).1, mdErase md id, OpResult.notFound) ∧
      permanent_delete (permanent_delete fs md root id).1 (mdErase md id) root id =
        ((permanent_delete fs md root id).1, mdErase md id, OpResult.notFound)) := by
  constructor
  · intro h
    unfold permanent_delete
    rw [h]
  · intro info h
    have hE : lookupRec (mdErase md id) id = none := lookupRec_mdErase_self md id
    refine ⟨?_, ?_, ?_, ?_, ?_⟩
    · simp only [permanent_delete, h]
    · simp only [permanent_delete, h]
    · simp only [permanent_delete, h]
      by_cases hex : fsExists fs (binPath root ++ [id ++ recExt info]) = true
      · rw [if_pos hex]
        by_cases hf : isFile fs (binPath root ++ [id ++ recExt info]) = true
        · rw [if_pos hf]
          unfold fsExists
          rw [fsGet_fsUnlink_self]
          rfl
        · rw [if_neg hf]
          unfold fsExists
          rw [fsGet_fsRmtree_self]
          rfl
      · rw [if_neg hex]
        simpa using hex
    · unfold restoreOp
      rw [hE]
    · unfold permanent_delete
      rw [hE]

/-- A sample share containing the recycle bin with one trashed file
`u1.txt`. -/
def fsBin : FS :=
  [(["share"], Node.dir), (["share", "回收站"], Node.dir),
    (["share", "回收站", "u1.txt"], Node.file [7])]

/-- The recycle record of the trashed file `u1.txt` in `fsBin`. -/
def recW : Record :=
  { original_name := "a.txt", original_path := ⟨false, ["a.txt"]⟩,
    deleted_time := 0, is_dir := false, size := 1 }

/-- A sample metadata store holding only `recW` under id `u1`. -/
def mdW : Metadata := [("u1", recW)]

/-- Witness for C6: permanently deleting `u1` from the sample bin removes
the object and the record, and both restore and permanent delete of `u1`
then fail with `NotFound`. -/
theorem c6_witness :
    (permanent_delete fsBin mdW ["share"] "u1").2.2 = OpResult.ok ∧
    (permanent_delete fsBin mdW ["share"] "u1").2.1 = mdErase mdW "u1" ∧
    fsExists (permanent_delete fsBin mdW ["share"] "u1").1
      (binPath ["share"] ++ ["u1" ++ recExt recW]) = false ∧
    restoreOp (permanent_delete fsBin mdW ["share"] "u1").1 (mdErase mdW "u1")
      ["share"] "u1" =
      ((permanent_delete fsBin mdW ["share"] "u1").1, mdErase mdW "u1",
        OpResult.notFound) ∧
    permanent_delete (permanent_delete fsBin mdW ["share"] "u1").1
      (mdErase mdW "u1") ["share"] "u1" =
      ((permanent_delete fsBin mdW ["share"] "u1").1, mdErase mdW "u1",
        OpResult.notFound) :=
  (c6_permanent_delete fsBin mdW ["share"] "u1").2 recW (by decide)

/-! ## Sweep lemmas (C5) -/

theorem fsGet_filter (fs : FS) (q : List String × Node → Bool) (p : List String)
    (h : ∀ e ∈ fs, e.1 = p → q e = true) :
    fsGet (fs.filter q) p = fsGet fs p := by
  induction fs with
  | nil => rfl
  | cons e rest ih =>
    have ih' := ih fun e' he' => h e' (List.mem_cons_of_mem _ he')
    by_cases hq : q e = true
    · rw [ List.filter_cons_of_pos hq, fsGet_cons, fsGet_cons]
      by_cases hep : e.1 = p
      · rw [if_pos hep, if_pos hep]
      · rw [if_neg hep, if_neg hep, ih']
    · rw [ List.filter_cons_of_neg (by simpa using hq), fsGet_cons]
      have hep : ¬ e.1 = p := fun hc => hq (h e (List.mem_cons_self _ _) hc)
      rw [if_neg hep, ih']

theorem fsGet_fsUnlink_ne (fs : FS) (p q : List String) (h : q ≠ p) :
    fsGet (fsUnlink fs q) p = fsGet fs p :=
  fsGet_filter fs _ p fun _ _ hep => by
    simp [hep]
    exact fun hc => h hc.symm

theorem fsGet_fsRmtree_not_pfx (fs : FS) (p q : List String)
    (h : q.isPrefixOf p = false) :
    fsGet (fsRmtree fs q) p = fsGet fs p :=
  fsGet_filter fs _ p fun _ _ hep => by simp [hep, h]

theorem append_singleton_inj {x : List String} {a b : String}
    (h : x ++ [a] = x ++ [b]) : a = b := by
  have h2 := List.append_cancel_left h
  simpa using h2

theorem sibling_not_isPrefixOf {x : List String} {a b : String} (h : a ≠ b) :
    (x ++ [a]).isPrefixOf (x ++ [b]) = false := by
  by_cases hp : (x ++ [a]).isPrefixOf (x ++ [b]) = true
  · obtain ⟨t, ht⟩ := List.isPrefixOf_iff_prefix.mp hp
    rw [ List.append_assoc] at ht
    have h2 := List.append_cancel_left ht
    cases t with
    | nil => exact absurd (by simpa using h2) h
    | cons u us => simp at h2
  · exact Bool.eq_false_iff.mpr hp

theorem sibling_ne {x : List String} {a b : String} (h : a ≠ b) :
    x ++ [a] ≠ x ++ [b] :=
  fun hc => h (append_singleton_inj hc)

theorem fsGet_deleteObj_sibling (fs : FS) (x : List String) (a b : String)
    (h : a ≠ b) :
    fsGet (if isFile fs (x ++ [a]) then fsUnlink fs (x ++ [a])
      else fsRmtree fs (x ++ [a])) (x ++ [b]) = fsGet fs (x ++ [b]) := by
  split
  · exact fsGet_fsUnlink_ne fs _ _ (sibling_ne h)
  · exact fsGet_fsRmtree_not_pfx fs _ _ (sibling_not_isPrefixOf h)

theorem cleanLoop_fst_sublist (root : List String) (now : Nat) :
    ∀ (md : Metadata) (fs : FS), List.Sublist (cleanLoop root now fs md).1 fs := by
  intro md
  induction md with
  | nil => intro fs; exact List.Sublist.refl fs
  | cons e rest ih =>
    intro fs
    simp only [cleanLoop]
    split
    · split
      · dsimp only
        refine (ih _).trans ?_
        split
        · exact List.filter_sublist _
        · exact List.filter_sublist _
      · exact ih fs
    · exact ih fs

theorem cleanLoop_rem_keys (root : List String) (now : Nat) :
    ∀ (md : Metadata) (fs : FS) (i : String),
      i ∈ (cleanLoop root now fs md).2 → i ∈ md.map Prod.fst := by
  intro md
  induction md with
  | nil => intro fs i h; simp [cleanLoop] at h
  | cons e rest ih =>
    intro fs i h
    simp only [cleanLoop] at h
    rw [ List.map_cons]
    split at h
    · split at h
      · dsimp only at h
        rcases List.mem_cons.mp h with h1 | h1
        · exact h1 ▸ List.mem_cons_self _ _
        · exact List.mem_cons_of_mem _ (ih _ i h1)
      · exact List.mem_cons_of_mem _ (ih fs i h)
    · exact List.mem_cons_of_mem _ (ih fs i h)

theorem cleanLoop_get_sibling (root : List String) (now : Nat) :
    ∀ (md : Metadata) (fs : FS) (a : String),
      (∀ e ∈ md, objNameOf e ≠ a) →
      fsGet (cleanLoop root now fs md).1 (binPath root ++ [a]) =
        fsGet fs (binPath root ++ [a]) := by
  intro md
  induction md with
  | nil => intro fs a _; rfl
  | cons e rest ih =>
    intro fs a h
    have hne : objNameOf e ≠ a := h e (List.mem_cons_self _ _)
    have hrest : ∀ e' ∈ rest, objNameOf e' ≠ a :=
      fun e' he' => h e' (List.mem_cons_of_mem _ he')
    simp only [cleanLoop]
    split
    · split
      · dsimp only
        rw [ih _ a hrest]
        exact fsGet_deleteObj_sibling fs (binPath root) (objNameOf e) a hne
      · exact ih fs a hrest
    · exact ih fs a hrest

theorem cleanLoop_rem_iff (root : List String) (now : Nat) :
    ∀ (md : Metadata) (fs : FS) (id : String) (info : Record),
      (md.map Prod.fst).Nodup → (md.map objNameOf).Nodup → (id, info) ∈ md →
      (id ∈ (cleanLoop root now fs md).2 ↔
        (RECYCLE_DAYS ≤ daysDiff now info.deleted_time ∧
          fsExists fs (binPath root ++ [objNameOf (id, info)]) = true)) := by
  intro md
  induction md with
  | nil => intro fs id info _ _ h; simp at h
  | cons e rest ih =>
    intro fs id info hk hn hm
    rw [ List.map_cons] at hk hn
    have hk2 := List.nodup_cons.mp hk
    have hn2 := List.nodup_cons.mp hn
    rcases List.mem_cons.mp hm with h1 | h1
    · obtain rfl : e = (id, info) := h1.symm
      have hid : id ∉ rest.map Prod.fst := hk2.1
      simp only [cleanLoop]
      split
      · rename_i hdays
        split
        · rename_i hex
          dsimp only
          constructor
          · intro _; exact ⟨hdays, hex⟩
          · intro _; exact List.mem_cons_self _ _
        · rename_i hnex
          constructor
          · intro hmem
            exact absurd (cleanLoop_rem_keys root now rest fs id hmem) hid
          · intro hc
            exact absurd hc.2 hnex
      · rename_i hnd
        constructor
        · intro hmem
          exact absurd (cleanLoop_rem_keys root now rest fs id hmem) hid
        · intro hc
          exact absurd hc.1 hnd
    · have hkey : e.1 ≠ id := by
        intro hc
        exact hk2.1 (hc ▸ List.mem_map.mpr ⟨(id, info), h1, rfl⟩)
      have hobj : objNameOf e ≠ objNameOf (id, info) := by
        intro hc
        exact hn2.1 (hc ▸ List.mem_map.mpr ⟨(id, info), h1, rfl⟩)
      simp only [cleanLoop]
      split
      · split
        · dsimp only
          rw [ List.mem_cons]
          have hpres : fsExists
              (if isFile fs (binPath root ++ [objNameOf e]) then
                fsUnlink fs (binPath root ++ [objNameOf e])
              else fsRmtree fs (binPath root ++ [objNameOf e]))
              (binPath root ++ [objNameOf (id, info)]) =
              fsExists fs (binPath root ++ [objNameOf (id, info)]) := by
            unfold fsExists
            rw [fsGet_deleteObj_sibling fs (binPath root) (objNameOf e)
              (objNameOf (id, info)) hobj]
          rw [ih _ id info hk2.2 hn2.2 h1, hpres]
          constructor
          · intro hc
            rcases hc with hc | hc
            · exact absurd hc.symm hkey
            · exact hc
          · intro hc
            exact Or.inr hc
        · exact ih fs id info hk2.2 hn2.2 h1
      · exact ih fs id info hk2.2 hn2.2 h1

theorem fsGet_deleteObj_self (fs : FS) (p : List String) :
    fsGet (if isFile fs p then fsUnlink fs p else fsRmtree fs p) p = none := by
  split
  · exact fsGet_fsUnlink_self fs p
  · exact fsGet_fsRmtree_self fs p

theorem cleanLoop_purges (root : List String) (now : Nat) :
    ∀ (md : Metadata) (fs : FS) (id : String) (info : Record),
      (md.map objNameOf).Nodup → (id, info) ∈ md →
      RECYCLE_DAYS ≤ daysDiff now info.deleted_time →
      fsExists fs (binPath root ++ [objNameOf (id, info)]) = true →
      fsGet (cleanLoop root now fs md).1 (binPath root ++ [objNameOf (id, info)]) =
        none := by
  intro md
  induction md with
  | nil => intro fs id info _ h; simp at h
  | cons e rest ih =>
    intro fs id info hn hm hdays hex
    rw [ List.map_cons] at hn
    have hn2 := List.nodup_cons.mp hn
    rcases List.mem_cons.mp hm with h1 | h1
    · obtain rfl : e = (id, info) := h1.symm
      have hrest : ∀ e' ∈ rest, objNameOf e' ≠ objNameOf (id, info) := by
        intro e' he' hc
        exact hn2.1 (hc ▸ List.mem_map.mpr ⟨e', he', rfl⟩)
      simp only [cleanLoop]
      rw [if_pos hdays, if_pos hex]
      dsimp only
      rw [cleanLoop_get_sibling root now rest _ _ hrest]
      exact fsGet_deleteObj_self fs _
    · have hobj : objNameOf e ≠ objNameOf (id, info) := by
        intro hc
        exact hn2.1 (hc ▸ List.mem_map.mpr ⟨(id, info), h1, rfl⟩)
      simp only [cleanLoop]
      split
      · split
        · rename_i hex2
          dsimp only
          refine ih _ id info hn2.2 h1 hdays ?_
          unfold fsExists
          rw [fsGet_deleteObj_sibling fs (binPath root) (objNameOf e)
            (objNameOf (id, info)) hobj]
          exact hex
        · exact ih fs id info hn2.2 h1 hdays hex
      · exact ih fs id info hn2.2 h1 hdays hex

/-- C5: the sweep purges exactly the records whose whole-day age reaches
the 30-day retention threshold and whose physical object exists: a younger
record survives the sweep, an expired record with an existing object is
dropped from the store and its object is removed from the filesystem, and
an expired record whose physical object is missing is kept in the store. -/
theorem c5_sweep_boundary (fs : FS) (md : Metadata) (root : List String)
    (now : Nat) (id : String) (info : Record)
    (hk : (md.map Prod.fst).Nodup) (hn : (md.map objNameOf).Nodup)
    (hm : (id, info) ∈ md) :
    (daysDiff now info.deleted_time < RECYCLE_DAYS →
      (id, info) ∈ (clean_old_items fs md root now).2.1) ∧
    (RECYCLE_DAYS ≤ daysDiff now info.deleted_time ∧
        fsExists fs (binPath root ++ [objNameOf (id, info)]) = true →
      (∀ j : Record, (id, j) ∉ (clean_old_items fs md root now).2.1) ∧
        fsExists (clean_old_items fs md root now).1
          (binPath root ++ [objNameOf (id, info)]) = false) ∧
    (RECYCLE_DAYS ≤ daysDiff now info.deleted_time ∧
        fsExists fs (binPath root ++ [objNameOf (id, info)]) = false →
      (id, info) ∈ (clean_old_items fs md root now).2.1) := by
  have hiff := cleanLoop_rem_iff root now md fs id info hk hn hm
  refine ⟨?_, ?_, ?_⟩
  · intro hlt
    have hnotin : id ∉ (cleanLoop root now fs md).2 := by
      intro hc
      exact absurd (hiff.mp hc).1 (Nat.not_le.mpr hlt)
    exact List.mem_filter.mpr ⟨hm, by simpa using hnotin⟩
  · intro hc
    have hin : id ∈ (cleanLoop root now fs md).2 := hiff.mpr hc
    constructor
    · intro j hj
      have := (List.mem_filter.mp hj).2
      simp at this
      exact this hin
    · show fsExists (cleanLoop root now fs md).1
        (binPath root ++ [objNameOf (id, info)]) = false
      unfold fsExists
      rw [cleanLoop_purges root now md fs id info hn hm hc.1 hc.2]
      rfl
  · intro hc
    have hnotin : id ∉ (cleanLoop root now fs md).2 := by
      intro hin
      have := (hiff.mp hin).2
      rw [hc.2] at this
      cases this
    exact List.mem_filter.mpr ⟨hm, by simpa using hnotin⟩

/-- A record 31 whole days old at sweep time (threshold + 1). -/
def recOld : Record :=
  { original_name := "o.txt", original_path := ⟨false, ["o.txt"]⟩,
    deleted_time := 0, is_dir := false, size := 1 }

/-- A record 29 whole days old at sweep time (threshold − 1). -/
def recNew : Record :=
  { original_name := "n.txt", original_path := ⟨false, ["n.txt"]⟩,
    deleted_time := 2 * 86400, is_dir := false, size := 1 }

/-- An expired record whose physical object is missing from the bin. -/
def recGh : Record :=
  { original_name := "g.txt", original_path := ⟨false, ["g.txt"]⟩,
    deleted_time := 0, is_dir := false, size := 1 }

/-- A metadata store holding the three sweep-scenario records. -/
def mdSweep : Metadata := [("old", recOld), ("new", recNew), ("gh", recGh)]

/-- The bin contents for the sweep scenario: objects for `old` and `new`,
none for `gh`. -/
def fsSweep : FS :=
  [(["share"], Node.dir), (["share", "回收站"], Node.dir),
    (["share", "回收站", "old.txt"], Node.file [1]),
    (["share", "回收站", "new.txt"], Node.file [2])]

/-- Witness for C5 at `now = 31` days: the 29-day-old record survives, the
31-day-old record is purged together with its object, and the expired
record with a missing object is kept. -/
theorem c5_witness :
    ("new", recNew) ∈ (clean_old_items fsSweep mdSweep ["share"] (31 * 86400)).2.1 ∧
    (("old", recOld) ∉ (clean_old_items fsSweep mdSweep ["share"] (31 * 86400)).2.1 ∧
      fsExists (clean_old_items fsSweep mdSweep ["share"] (31 * 86400)).1
        (binPath ["share"] ++ [objNameOf ("old", recOld)]) = false) ∧
    ("gh", recGh) ∈ (clean_old_items fsSweep mdSweep ["share"] (31 * 86400)).2.1 :=
  ⟨(c5_sweep_boundary fsSweep mdSweep ["share"] (31 * 86400) "new" recNew
      (by decide) (by decide) (by decide)).1 (by decide),
    ⟨((c5_sweep_boundary fsSweep mdSweep ["share"] (31 * 86400) "old" recOld
      (by decide) (by decide) (by decide)).2.1 ⟨by decide, by decide⟩).1 recOld,
      ((c5_sweep_boundary fsSweep mdSweep ["share"] (31 * 86400) "old" recOld
      (by decide) (by decide) (by decide)).2.1 ⟨by decide, by decide⟩).2⟩,
    (c5_sweep_boundary fsSweep mdSweep ["share"] (31 * 86400) "gh" recGh
      (by decide) (by decide) (by decide)).2.2 ⟨by decide, by decide⟩⟩

/-! ## Soft-delete / restore lemmas (C4) -/

theorem isPrefixOf_eq_false {a b : List String} (h : ¬ a <+: b) :
    a.isPrefixOf b = false :=
  Bool.eq_false_iff.mpr fun hc => h (List.isPrefixOf_iff_prefix.mp hc)

theorem not_prefix_of_eq_false {a b : List String} (h : a.isPrefixOf b = false) :
    ¬ a <+: b :=
  fun hc => by rw [ List.isPrefixOf_iff_prefix.mpr hc] at h; cases h

theorem isPrefixOf_append_self (a t : List String) :
    a.isPrefixOf (a ++ t) = true :=
  List.isPrefixOf_iff_prefix.mpr (List.prefix_append a t)

theorem fsGet_moveTree_dest (src dst : List String) (fs : FS) (sfx : List String)
    (hnd : ∀ e ∈ fs, dst.isPrefixOf e.1 = false) :
    fsGet (moveTree src dst fs) (dst ++ sfx) = fsGet fs (src ++ sfx) := by
  induction fs with
  | nil => rfl
  | cons e rest ih =>
    have ih' := ih fun e' he' => hnd e' (List.mem_cons_of_mem _ he')
    simp only [moveTree, List.map_cons]
    by_cases hsp : src.isPrefixOf e.1 = true
    · rw [if_pos hsp]
      obtain ⟨t, ht⟩ := List.isPrefixOf_iff_prefix.mp hsp
      have hdrop : e.1.drop src.length = t := by
        rw [← ht, List.drop_left]
      rw [hdrop, fsGet_cons, fsGet_cons]
      by_cases hts : t = sfx
      · rw [hts]
        rw [if_pos rfl, if_pos (by rw [← ht, hts])]
      · rw [if_neg (fun hc => hts (List.append_cancel_left hc)),
          if_neg (fun hc => hts (List.append_cancel_left (ht.trans hc))),
          ← moveTree]
        exact ih'
    · rw [if_neg hsp, fsGet_cons, fsGet_cons]
      have hn1 : ¬ e.1 = dst ++ sfx := by
        intro hc
        have := hnd e (List.mem_cons_self _ _)
        rw [hc, isPrefixOf_append_self] at this
        cases this
      have hn2 : ¬ e.1 = src ++ sfx := by
        intro hc
        rw [hc, isPrefixOf_append_self] at hsp
        exact hsp rfl
      rw [if_neg hn1, if_neg hn2, ← moveTree]
      exact ih'

theorem fsGet_moveTree_src_none (src dst : List String) (fs : FS)
    (p : List String) (hsp : src.isPrefixOf p = true)
    (hdp : dst.isPrefixOf p = false) :
    fsGet (moveTree src dst fs) p = none := by
  induction fs with
  | nil => rfl
  | cons e rest ih =>
    simp only [moveTree, List.map_cons]
    by_cases hse : src.isPrefixOf e.1 = true
    · rw [if_pos hse, fsGet_cons]
      have hn1 : ¬ dst ++ e.1.drop src.length = p := by
        intro hc
        rw [← hc, isPrefixOf_append_self] at hdp
        cases hdp
      rw [if_neg hn1, ← moveTree]
      exact ih
    · rw [if_neg hse, fsGet_cons]
      have hn2 : ¬ e.1 = p := by
        intro hc
        rw [hc, hsp] at hse
        exact hse rfl
      rw [if_neg hn2, ← moveTree]
      exact ih

theorem fsGet_moveTree_other (src dst : List String) (fs : FS)
    (p : List String) (hsp : src.isPrefixOf p = false)
    (hdp : dst.isPrefixOf p = false) :
    fsGet (moveTree src dst fs) p = fsGet fs p := by
  induction fs with
  | nil => rfl
  | cons e rest ih =>
    simp only [moveTree, List.map_cons]
    by_cases hse : src.isPrefixOf e.1 = true
    · rw [if_pos hse, fsGet_cons, fsGet_cons]
      have hn1 : ¬ dst ++ e.1.drop src.length = p := by
        intro hc
        rw [← hc, isPrefixOf_append_self] at hdp
        cases hdp
      have hn2 : ¬ e.1 = p := by
        intro hc
        rw [← hc, hse] at hsp
        cases hsp
      rw [if_neg hn1, if_neg hn2, ← moveTree]
      exact ih
    · rw [if_neg hse, fsGet_cons, fsGet_cons, ← moveTree]
      by_cases hep : e.1 = p
      · rw [if_pos hep, if_pos hep]
      · rw [if_neg hep, if_neg hep]
        exact ih

theorem moveTree_roundtrip (src dst : List String) (fs : FS)
    (hnd : ∀ e ∈ fs, dst.isPrefixOf e.1 = false) :
    moveTree dst src (moveTree src dst fs) = fs := by
  induction fs with
  | nil => rfl
  | cons e rest ih =>
    have ih' := ih fun e' he' => hnd e' (List.mem_cons_of_mem _ he')
    simp only [moveTree, List.map_cons]
    by_cases hsp : src.isPrefixOf e.1 = true
    · rw [if_pos hsp]
      obtain ⟨t, ht⟩ := List.isPrefixOf_iff_prefix.mp hsp
      have hdrop : e.1.drop src.length = t := by
        rw [← ht, List.drop_left]
      rw [hdrop, if_pos (isPrefixOf_append_self dst t), List.drop_left, ht]
      show e :: moveTree dst src (moveTree src dst rest) = e :: rest
      rw [ih']
    · rw [if_neg hsp,
        if_neg (Bool.eq_false_iff.mp (hnd e (List.mem_cons_self _ _)))]
      show e :: moveTree dst src (moveTree src dst rest) = e :: rest
      rw [ih']

theorem mkdirP_eq_self (fs : FS) (p : List String)
    (h : ∀ a ∈ prefixesOf p, fsExists fs a = true) : mkdirP fs p = fs := by
  unfold mkdirP
  have hgen : ∀ (l : List (List String)) (acc : FS),
      (∀ a ∈ l, fsExists acc a = true) →
      l.foldl (fun acc a => if fsExists acc a then acc else acc ++ [(a, Node.dir)])
        acc = acc := by
    intro l
    induction l with
    | nil => intro acc _; rfl
    | cons a t ih =>
      intro acc h2
      rw [ List.foldl_cons, if_pos (h2 a (List.mem_cons_self _ _))]
      exact ih acc fun b hb => h2 b (List.mem_cons_of_mem _ hb)
  exact hgen _ fs h

theorem mem_prefixesOf {q a : List String} (h : a ∈ prefixesOf q) :
    a <+: q ∧ 1 ≤ a.length := by
  obtain ⟨i, hi, rfl⟩ := List.mem_map.mp h
  have hi' : i < q.length := List.mem_range.mp hi
  refine ⟨ List.take_prefix _ _, ?_⟩
  rw [ List.length_take]
  exact Nat.le_min.mpr ⟨by omega, by omega⟩

theorem lookupRec_cons (e : String × Record) (rest : Metadata) (i : String) :
    lookupRec (e :: rest) i = if e.1 = i then some e.2 else lookupRec rest i := rfl

theorem lookupRec_append_right (md l : Metadata) (i : String)
    (h : lookupRec md i = none) : lookupRec (md ++ l) i = lookupRec l i := by
  induction md with
  | nil => rfl
  | cons e rest ih =>
    rw [lookupRec_cons] at h
    by_cases hep : e.1 = i
    · rw [if_pos hep] at h
      cases h
    · rw [if_neg hep] at h
      rw [ List.cons_append, lookupRec_cons, if_neg hep]
      exact ih h

theorem lookupRec_mdInsert_self (md : Metadata) (i : String) (r : Record) :
    lookupRec (mdInsert md i r) i = some r := by
  unfold mdInsert
  rw [lookupRec_append_right _ _ _ (lookupRec_mdErase_self md i), lookupRec_cons,
    if_pos rfl]

theorem mdErase_eq_self (md : Metadata) (i : String)
    (h : i ∉ md.map Prod.fst) : mdErase md i = md :=
  List.filter_eq_self.mpr fun e he => by
    simp only [decide_eq_true_eq]
    intro hc
    exact h (hc ▸ List.mem_map.mpr ⟨e, he, rfl⟩)

theorem mdErase_mdInsert_self (md : Metadata) (i : String) (r : Record)
    (h : i ∉ md.map Prod.fst) : mdErase (mdInsert md i r) i = md := by
  unfold mdInsert
  rw [show mdErase (mdErase md i ++ [(i, r)]) i =
      mdErase (mdErase md i) i ++ mdErase [(i, r)] i from List.filter_append _ _,
    mdErase_eq_self md i h, mdErase_eq_self md i h]
  show md ++ List.filter _ [(i, r)] = md
  simp [mdErase]

/-- C4: soft delete followed by restore is the identity: for an item inside
the share (away from the recycle bin, with a fresh id and its parent chain
present), `deleteOp` succeeds, and the immediate `restoreOp` of the
generated id succeeds and returns the filesystem and the metadata store to
exactly their original states — the item is back at its original relative
path with its original name and byte-for-byte content, and the
`RecycleRecord` is gone. -/
theorem c4_soft_delete_restore (fs : FS) (md : Metadata) (root : List String)
    (rp : RelPath) (uid : String) (now : Nat) (orig : List String)
    (h1 : get_safe_path root rp = some orig)
    (h2 : fsExists fs orig = true)
    (h3 : orig ≠ binPath root)
    (hbin : fsExists fs (binPath root) = true)
    (h6 : (binPath root).isPrefixOf orig = false)
    (hdest : ∀ e ∈ fs, (binPath root ++
      [uid ++ (if isFile fs orig then suffixOf (lastName orig) else "")]).isPrefixOf
        e.1 = false)
    (h7 : uid ∉ md.map Prod.fst)
    (h8 : ∀ a ∈ prefixesOf orig.dropLast, fsExists fs a = true) :
    (deleteOp fs md root rp uid now).2.2 = OpResult.ok ∧
    restoreOp (deleteOp fs md root rp uid now).1
      (deleteOp fs md root rp uid now).2.1 root uid = (fs, md, OpResult.ok) := by
  set ext0 := (if isFile fs orig then suffixOf (lastName orig) else "") with hext
  set dest := binPath root ++ [uid ++ ext0] with hdst
  have hDel : deleteOp fs md root rp uid now =
      (moveTree orig dest fs,
        mdInsert md uid
          { original_name := lastName orig
            original_path := rp
            deleted_time := now
            is_dir := isDir (moveTree orig dest fs) dest
            size := if isDir (moveTree orig dest fs) dest then
                get_dir_size (moveTree orig dest fs) dest
              else fileSize (moveTree orig dest fs) dest },
        OpResult.ok) := by
    unfold deleteOp
    rw [h1]
    dsimp only
    rw [h2, hbin, if_pos rfl, if_neg h3, if_pos rfl]
  have hget : fsGet (moveTree orig dest fs) dest = fsGet fs orig := by
    have h := fsGet_moveTree_dest orig dest fs [] hdest
    simpa using h
  cases hfg : fsGet fs orig with
  | none =>
    unfold fsExists at h2
    rw [hfg] at h2
    cases h2
  | some nd =>
    have hdorig : dest.isPrefixOf orig = false := by
      refine isPrefixOf_eq_false fun hc => ?_
      exact not_prefix_of_eq_false h6 ((List.prefix_append (binPath root) _).trans hc)
    have hrecExt : recExt
        { original_name := lastName orig
          original_path := rp
          deleted_time := now
          is_dir := isDir (moveTree orig dest fs) dest
          size := if isDir (moveTree orig dest fs) dest then
              get_dir_size (moveTree orig dest fs) dest
            else fileSize (moveTree orig dest fs) dest } = ext0 := by
      unfold recExt
      dsimp only
      unfold isDir
      rw [hget, hfg]
      cases nd with
      | dir =>
        have hf : isFile fs orig = false := by
          unfold isFile
          rw [hfg]
        rw [hext, hf]
        rfl
      | file c =>
        have hf : isFile fs orig = true := by
          unfold isFile
          rw [hfg]
        rw [hext, hf]
        rfl
    have hex2 : fsExists (moveTree orig dest fs) dest = true := by
      unfold fsExists
      rw [hget, hfg]
      rfl
    have hno : fsExists (moveTree orig dest fs) orig = false := by
      unfold fsExists
      rw [fsGet_moveTree_src_none orig dest fs orig (isPrefixOf_refl orig) hdorig]
      rfl
    have hmk : mkdirP (moveTree orig dest fs) orig.dropLast = moveTree orig dest fs := by
      refine mkdirP_eq_self _ _ fun a ha => ?_
      obtain ⟨hao, halen⟩ := mem_prefixesOf ha
      have haorig : a <+: orig := hao.trans (List.dropLast_prefix orig)
      have hlen : a.length ≤ orig.length - 1 := by
        have h := hao.length_le
        rwa [ List.length_dropLast] at h
      have horiglen : 1 ≤ orig.length := le_trans halen haorig.length_le
      have hnso : orig.isPrefixOf a = false := by
        refine isPrefixOf_eq_false fun hc => ?_
        have h := hc.length_le
        omega
      have hnsd : dest.isPrefixOf a = false := by
        refine isPrefixOf_eq_false fun hc => ?_
        exact not_prefix_of_eq_false h6
          (((List.prefix_append (binPath root) _).trans hc).trans haorig)
      unfold fsExists
      rw [fsGet_moveTree_other orig dest fs a hnso hnsd]
      exact h8 a ha
    constructor
    · rw [hDel]
    · rw [hDel]
      show restoreOp (moveTree orig dest fs) (mdInsert md uid _) root uid = _
      unfold restoreOp
      rw [lookupRec_mdInsert_self]
      dsimp only
      rw [hrecExt, ← hdst, hex2, if_pos rfl, h1]
      dsimp only
      rw [hno, if_neg (by simp)]
      rw [hmk, moveTree_roundtrip orig dest fs hdest,
        mdErase_mdInsert_self md uid _ h7]

/-- A share with the recycle bin present and a file `docs/a.txt`. -/
def fsDocs : FS :=
  [(["share"], Node.dir), (["share", "回收站"], Node.dir),
    (["share", "docs"], Node.dir), (["share", "docs", "a.txt"], Node.file [1, 2, 3])]

/-- Witness for C4: soft deleting `docs/a.txt` with fresh id `u1` and
restoring it reproduces the original filesystem and metadata exactly. -/
theorem c4_witness :
    (deleteOp fsDocs [] ["share"] ⟨false, ["docs", "a.txt"]⟩ "u1" 5).2.2 =
      OpResult.ok ∧
    restoreOp (deleteOp fsDocs [] ["share"] ⟨false, ["docs", "a.txt"]⟩ "u1" 5).1
      (deleteOp fsDocs [] ["share"] ⟨false, ["docs", "a.txt"]⟩ "u1" 5).2.1
      ["share"] "u1" = (fsDocs, [], OpResult.ok) :=
  c4_soft_delete_restore fsDocs [] ["share"] ⟨false, ["docs", "a.txt"]⟩ "u1" 5
    ["share", "docs", "a.txt"] (by decide) (by decide) (by decide) (by decide)
    (by decide) (by decide) (by decide) (by decide)

end App
